import Mathlib

/-!
Shallow embedding of `src/EmployeeScheduler.py` (class `EmployeeScheduler`).

Days, shifts and employee names are Python strings; we keep them as `String`.
Python `dict`s indexed by day/shift/employee become total functions on `String`
(the source only ever reads `weekly_shifts` through `.get(e, 0)`, so the
function model with default `0` is exact).  `all_employees` is a Python `set`;
we model it as a duplicate-free list, fixing one deterministic iteration order
(insertion order) — the source's behaviour on ties in Phase 2 depends on the
set's iteration order, which CPython leaves unspecified.
-/

/-- `DAYS_OF_WEEK` class constant (line 20). -/
def DAYS_OF_WEEK : List String :=
  ["Monday", "Tuesday", "Wednesday", "Thursday", "Friday", "Saturday", "Sunday"]

/-- `SHIFT_TIMES` class constant (line 21). -/
def SHIFT_TIMES : List String := ["Morning", "Afternoon", "Evening"]

/-- `VALID_DAYS` (line 24): the set of valid days; membership in the list is
set membership. -/
def VALID_DAYS : List String := DAYS_OF_WEEK

/-- `VALID_SHIFTS` (line 25). -/
def VALID_SHIFTS : List String := SHIFT_TIMES

/-- `MAX_SHIFTS_PER_WEEK` (line 28). -/
def MAX_SHIFTS_PER_WEEK : Nat := 5

/-- `MIN_EMPLOYEES_PER_SHIFT` (line 29). -/
def MIN_EMPLOYEES_PER_SHIFT : Nat := 2

/-- `MIN_TOTAL_EMPLOYEES` (line 30). -/
def MIN_TOTAL_EMPLOYEES : Nat := 9

/-- The mutable state of an `EmployeeScheduler` instance (`__init__`,
lines 32-52). -/
structure Scheduler where
  /-- `self.schedule`: Day -> Shift -> list of employees. -/
  schedule : String → String → List String
  /-- `self.weekly_shifts`: employee -> shifts this week; the source always
  reads it via `.get(employee, 0)`, so absent keys are `0`. -/
  weekly_shifts : String → Nat
  /-- `self.daily_employees`: Day -> set of employees working that day,
  as a membership function. -/
  daily_employees : String → String → Bool
  /-- `self.preferences`: insertion-ordered dict Employee -> insertion-ordered
  dict Day -> list of preferred shifts, as nested association lists. -/
  preferences : List (String × List (String × List String))
  /-- `self.all_employees`: set of employees, as a duplicate-free list in
  insertion order. -/
  all_employees : List String

/-- The freshly constructed scheduler (`__init__`). -/
def initScheduler : Scheduler :=
  { schedule := fun _ _ => []
    weekly_shifts := fun _ => 0
    daily_employees := fun _ _ => false
    preferences := []
    all_employees := [] }

/-- Insertion-ordered-dict update: set the value at `key` to `f` of the
current value (`dflt` when the key is absent; a fresh key is appended at the
end, matching Python dict insertion order). -/
def updateAssoc {α : Type} (l : List (String × α)) (key : String) (dflt : α)
    (f : α → α) : List (String × α) :=
  match l with
  | [] => [(key, f dflt)]
  | (k, v) :: rest =>
    if k = key then (k, f v) :: rest else (k, v) :: updateAssoc rest key dflt f

/-- `add_employee_preference` (lines 54-67): invalid day/shift is silently
ignored before any mutation; otherwise the employee is added to the roster
and the shift appended to that day's preference list if not already there. -/
def add_employee_preference (s : Scheduler) (employee day shift : String) :
    Scheduler :=
  if day ∉ VALID_DAYS ∨ shift ∉ VALID_SHIFTS then s
  else
    { s with
      all_employees :=
        if employee ∈ s.all_employees then s.all_employees
        else s.all_employees ++ [employee]
      preferences :=
        updateAssoc s.preferences employee []
          (fun dayPrefs =>
            updateAssoc dayPrefs day []
              (fun shifts =>
                if shift ∈ shifts then shifts else shifts ++ [shift])) }

/-- `add_employee` (lines 69-71). -/
def add_employee (s : Scheduler) (employee : String) : Scheduler :=
  { s with
    all_employees :=
      if employee ∈ s.all_employees then s.all_employees
      else s.all_employees ++ [employee] }

/-- `can_assign_shift` (lines 73-81): the pure feasibility check. -/
def can_assign_shift (s : Scheduler) (employee day shift : String) : Bool :=
  !(s.daily_employees day employee)
    && decide (s.weekly_shifts employee < MAX_SHIFTS_PER_WEEK)
    && decide (employee ∉ s.schedule day shift)

/-- `assign_employee_to_shift` (lines 83-89): unconditional mutator. -/
def assign_employee_to_shift (s : Scheduler) (employee day shift : String) :
    Scheduler :=
  { s with
    schedule := fun d sh =>
      if d = day ∧ sh = shift then s.schedule d sh ++ [employee]
      else s.schedule d sh
    daily_employees := fun d e =>
      if d = day ∧ e = employee then true else s.daily_employees d e
    weekly_shifts := fun e =>
      if e = employee then s.weekly_shifts e + 1 else s.weekly_shifts e }

/-- `clear_schedule` (lines 91-97): reset the cycle state; roster and
preferences untouched. -/
def clear_schedule (s : Scheduler) : Scheduler :=
  { s with
    schedule := fun _ _ => []
    weekly_shifts := fun _ => 0
    daily_employees := fun _ _ => false }

/-- Phase 1, innermost loop (`for shift in shifts`, lines 140-145): scan the
employee's preferred shifts for `day`; at the first one where
`can_assign_shift` holds and the slot is empty, assign and `break` (the break
exits only this loop). A feasible but non-empty slot is skipped. -/
def phase1Shifts (s : Scheduler) (employee day : String) :
    List String → Scheduler
  | [] => s
  | shift :: rest =>
    if can_assign_shift s employee day shift then
      if s.schedule day shift = [] then
        assign_employee_to_shift s employee day shift
      else
        phase1Shifts s employee day rest
    else
      phase1Shifts s employee day rest

/-- Phase 1, middle loop (`for day, shifts in day_prefs.items()`, line 139):
the `break` above does not leave this loop, so every preferred day of the
employee is scanned. -/
def phase1Days (s : Scheduler) (employee : String) :
    List (String × List String) → Scheduler
  | [] => s
  | (day, shifts) :: rest =>
    phase1Days (phase1Shifts s employee day shifts) employee rest

/-- Phase 1, outer loop (`for employee, day_prefs in self.preferences.items()`,
line 138). -/
def phase1Emps (s : Scheduler) :
    List (String × List (String × List String)) → Scheduler
  | [] => s
  | (employee, dayPrefs) :: rest =>
    phase1Emps (phase1Days s employee dayPrefs) rest

/-- Phase 1 of `generate_schedule` (lines 137-145). Assignments never touch
`preferences`, so iterating the initial preference list is exact. -/
def phase1 (s : Scheduler) : Scheduler := phase1Emps s s.preferences

/-- `available_employees` (lines 153-156): registered employees eligible for
the slot, in roster iteration order. -/
def availableEmployees (s : Scheduler) (day shift : String) : List String :=
  s.all_employees.filter (fun emp => can_assign_shift s emp day shift)

/-- Outcome of the Phase-2 `while` loop on one slot: either the slot was
brought up to strength, or the source's early `return` of the shortfall error
fired, carrying the state at that moment. -/
inductive FillResult where
  | ok (s : Scheduler)
  | shortfall (s : Scheduler)

/-- The scheduler state carried by a `FillResult`. -/
def FillResult.state : FillResult → Scheduler
  | .ok s => s
  | .shortfall s => s

/-- The Phase-2 `while` loop for one slot (lines 152-170), fuelled. Each pass
appends exactly one employee, so the guard `len < MIN_EMPLOYEES_PER_SHIFT`
makes `MIN_EMPLOYEES_PER_SHIFT` passes always enough; `fillSlot` below starts
with that fuel, and the fuel-exhausted branch is only reached with the guard
already false. The source checks `available_employees` for emptiness before
sorting; sorting preserves emptiness, so matching on the sorted list is the
same test. Python's stable `sort` by load followed by `[0]` picks the first
list element of minimal load, which is the head of a stable insertion sort
under `≤` on loads. -/
def fillSlotFuel (day shift : String) : Nat → Scheduler → FillResult
  | 0, s => .ok s
  | Nat.succ n, s =>
    if (s.schedule day shift).length < MIN_EMPLOYEES_PER_SHIFT then
      match
        List.insertionSort (fun a b => s.weekly_shifts a ≤ s.weekly_shifts b)
          (availableEmployees s day shift)
      with
      | [] => .shortfall s
      | selected :: _ =>
        fillSlotFuel day shift n (assign_employee_to_shift s selected day shift)
    else .ok s

/-- One slot of Phase 2, with adequate fuel. -/
def fillSlot (day shift : String) (s : Scheduler) : FillResult :=
  fillSlotFuel day shift MIN_EMPLOYEES_PER_SHIFT s

/-- The generation result: the three shapes of string the source returns
(lines 130-132, 158-162, 172-174). `insufficientStaff` carries the reported
employee count; `staffingShortfall` carries the day and shift named in the
message together with the partial state whose schedule and workload texts the
message embeds. -/
inductive GenResult where
  | insufficientStaff (count : Nat)
  | staffingShortfall (day shift : String) (snapshot : Scheduler)
  | success

/-- The flattened slot traversal of Phase 2 (`for day ... for shift ...`,
lines 148-149): days in calendar order, shifts Morning, Afternoon, Evening. -/
def allSlots : List (String × String) :=
  DAYS_OF_WEEK.flatMap (fun day => SHIFT_TIMES.map (fun shift => (day, shift)))

/-- Phase 2 of `generate_schedule` (lines 147-170): fill the slots in order;
a shortfall aborts immediately, returning the error and retaining the partial
state as the engine state. -/
def phase2 : List (String × String) → Scheduler → GenResult × Scheduler
  | [], s => (.success, s)
  | (day, shift) :: rest, s =>
    match fillSlot day shift s with
    | .shortfall s2 => (.staffingShortfall day shift s2, s2)
    | .ok s2 => phase2 rest s2

/-- `generate_schedule` (lines 125-174): gate on the employee count, reset the
cycle, run both phases. The pair is (result, state of the engine after the
call). -/
def generate_schedule (s : Scheduler) : GenResult × Scheduler :=
  if s.all_employees.length < MIN_TOTAL_EMPLOYEES then
    (.insufficientStaff s.all_employees.length, s)
  else
    phase2 allSlots (phase1 (clear_schedule s))

/-- Nine employees with no preferences (spec Scenario A). -/
def ex9 : Scheduler :=
  List.foldl add_employee initScheduler ["A", "B", "C", "D", "E", "F", "G", "H", "I"]

/-- Five employees with no preferences (spec Scenario B). -/
def ex5 : Scheduler :=
  List.foldl add_employee initScheduler ["A", "B", "C", "D", "E"]

/-- Two employees with no preferences. -/
def exAB : Scheduler := add_employee (add_employee initScheduler "A") "B"

/-- Nine employees where "A" has preferences on two distinct days. -/
def ex10 : Scheduler :=
  add_employee_preference
    (add_employee_preference
      (List.foldl add_employee initScheduler ["B", "C", "D", "E", "F", "G", "H", "I"])
      "A" "Monday" "Morning")
    "A" "Tuesday" "Morning"

/-! ### Basic lemmas about the embedded operations -/

lemma can_assign_shift_eq_true {s : Scheduler} {e day shift : String} :
    can_assign_shift s e day shift = true ↔
      s.daily_employees day e = false ∧
        s.weekly_shifts e < MAX_SHIFTS_PER_WEEK ∧ e ∉ s.schedule day shift := by
  simp [can_assign_shift, Bool.and_eq_true, Bool.not_eq_true', decide_eq_true_eq,
    and_assoc]

lemma assign_schedule (s : Scheduler) (e day shift d sh : String) :
    (assign_employee_to_shift s e day shift).schedule d sh =
      if d = day ∧ sh = shift then s.schedule d sh ++ [e] else s.schedule d sh := rfl

lemma assign_daily (s : Scheduler) (e day shift d x : String) :
    (assign_employee_to_shift s e day shift).daily_employees d x =
      if d = day ∧ x = e then true else s.daily_employees d x := rfl

lemma assign_weekly (s : Scheduler) (e day shift x : String) :
    (assign_employee_to_shift s e day shift).weekly_shifts x =
      if x = e then s.weekly_shifts x + 1 else s.weekly_shifts x := rfl

/-- The head of the load-stable-sorted eligible list is an element of the
input of minimal load (Python's stable `sort` + `[0]`). -/
lemma insertionSort_head_min (w : String → Nat) :
    ∀ (l : List String) (sel : String) (rest : List String),
      List.insertionSort (fun a b => w a ≤ w b) l = sel :: rest →
      sel ∈ l ∧ ∀ y ∈ l, w sel ≤ w y := by
  intro l
  induction l with
  | nil => intro sel rest h; simp [List.insertionSort] at h
  | cons a t ih =>
    intro sel rest h
    rw [List.insertionSort] at h
    cases ht : List.insertionSort (fun a b => w a ≤ w b) t with
    | nil =>
      have htnil : t = [] := by
        have hp := List.perm_insertionSort (fun a b => w a ≤ w b) t
        rw [ht] at hp
        exact hp.symm.eq_nil
      rw [ht] at h
      simp only [List.orderedInsert] at h
      obtain ⟨rfl, -⟩ := List.cons.inj h
      subst htnil
      refine ⟨List.mem_cons_self _ _, ?_⟩
      intro y hy
      rcases List.mem_cons.mp hy with rfl | hy
      · exact le_refl _
      · simp at hy
    | cons b bs =>
      obtain ⟨hbmem, hbmin⟩ := ih b bs ht
      rw [ht] at h
      simp only [List.orderedInsert] at h
      split at h
      · obtain ⟨rfl, -⟩ := List.cons.inj h
        refine ⟨List.mem_cons_self _ _, ?_⟩
        intro y hy
        rcases List.mem_cons.mp hy with rfl | hy
        · exact le_refl _
        · exact le_trans (by assumption) (hbmin y hy)
      · obtain ⟨rfl, -⟩ := List.cons.inj h
        refine ⟨List.mem_cons_of_mem _ hbmem, ?_⟩
        intro y hy
        rcases List.mem_cons.mp hy with rfl | hy
        · exact Nat.le_of_not_le (by assumption)
        · exact hbmin y hy

/-- Whatever the Phase-2 loop selects is a registered, eligible employee. -/
lemma selected_can_assign {s : Scheduler} {day shift sel : String}
    {rest : List String}
    (h : List.insertionSort (fun a b => s.weekly_shifts a ≤ s.weekly_shifts b)
        (availableEmployees s day shift) = sel :: rest) :
    sel ∈ s.all_employees ∧ can_assign_shift s sel day shift = true := by
  have hmem : sel ∈ availableEmployees s day shift := by
    have hsorted : sel ∈ List.insertionSort
        (fun a b => s.weekly_shifts a ≤ s.weekly_shifts b)
        (availableEmployees s day shift) := by
      rw [h]; exact List.mem_cons_self _ _
    exact (List.mem_insertionSort _).mp hsorted
  have := List.mem_filter.mp hmem
  exact ⟨this.1, this.2⟩

/-! ### Invariants preserved by guarded assignment -/

/-- I2: every weekly load is within the cap. -/
def CapOK (s : Scheduler) : Prop :=
  ∀ e, s.weekly_shifts e ≤ MAX_SHIFTS_PER_WEEK

/-- `daily_employees` covers slot membership (the cache the source keeps in
`assign_employee_to_shift`). -/
def LinkOK (s : Scheduler) : Prop :=
  ∀ d sh e, e ∈ s.schedule d sh → s.daily_employees d e = true

/-- I1: no employee sits in two different slots of the same day. -/
def ExclOK (s : Scheduler) : Prop :=
  ∀ d sh1 sh2 e, sh1 ≠ sh2 → e ∈ s.schedule d sh1 → e ∉ s.schedule d sh2

/-- After Phase 1 every slot holds at most one employee (Phase 1 only assigns
into empty slots). -/
def SeedOK (s : Scheduler) : Prop :=
  ∀ d sh, (s.schedule d sh).length ≤ 1

lemma clear_CapOK (s : Scheduler) : CapOK (clear_schedule s) := by
  intro e; simp [clear_schedule, MAX_SHIFTS_PER_WEEK]

lemma clear_LinkOK (s : Scheduler) : LinkOK (clear_schedule s) := by
  intro d sh e he; simp [clear_schedule] at he

lemma clear_ExclOK (s : Scheduler) : ExclOK (clear_schedule s) := by
  intro d sh1 sh2 e _ he; simp [clear_schedule] at he

lemma clear_SeedOK (s : Scheduler) : SeedOK (clear_schedule s) := by
  intro d sh; simp [clear_schedule]

lemma assign_CapOK {s : Scheduler} {e day shift : String}
    (hca : can_assign_shift s e day shift = true) (h : CapOK s) :
    CapOK (assign_employee_to_shift s e day shift) := by
  intro x
  have hw := (can_assign_shift_eq_true.mp hca).2.1
  rw [assign_weekly]
  split
  · next hx => subst hx; omega
  · exact h x

lemma assign_LinkOK {s : Scheduler} {e day shift : String} (h : LinkOK s) :
    LinkOK (assign_employee_to_shift s e day shift) := by
  intro d sh x hx
  rw [assign_daily]
  split
  · rfl
  · next hne =>
    rw [assign_schedule] at hx
    split at hx
    · next hslot =>
      rcases List.mem_append.mp hx with hx | hx
      · exact h d sh x hx
      · simp at hx
        exact absurd ⟨hslot.1, hx⟩ hne
    · exact h d sh x hx

lemma assign_ExclOK {s : Scheduler} {e day shift : String}
    (hca : can_assign_shift s e day shift = true) (hlink : LinkOK s)
    (h : ExclOK s) : ExclOK (assign_employee_to_shift s e day shift) := by
  have hdaily : s.daily_employees day e = false :=
    (can_assign_shift_eq_true.mp hca).1
  intro d sh1 sh2 x hne h1 h2
  rw [assign_schedule] at h1 h2
  by_cases hs1 : d = day ∧ sh1 = shift
  · rw [if_pos hs1] at h1
    have hs2 : ¬(d = day ∧ sh2 = shift) := by
      rintro ⟨-, rfl⟩; exact hne hs1.2
    rw [if_neg hs2] at h2
    rcases List.mem_append.mp h1 with h1 | h1
    · exact h d sh1 sh2 x hne h1 h2
    · simp at h1
      subst h1
      have hde := hlink d sh2 x h2
      rw [hs1.1, hdaily] at hde
      exact Bool.noConfusion hde
  · rw [if_neg hs1] at h1
    by_cases hs2 : d = day ∧ sh2 = shift
    · rw [if_pos hs2] at h2
      rcases List.mem_append.mp h2 with h2 | h2
      · exact h d sh1 sh2 x hne h1 h2
      · simp at h2
        subst h2
        have hde := hlink d sh1 x h1
        rw [hs2.1, hdaily] at hde
        exact Bool.noConfusion hde
    · rw [if_neg hs2] at h2
      exact h d sh1 sh2 x hne h1 h2

lemma assign_SeedOK {s : Scheduler} {e day shift : String}
    (hempty : s.schedule day shift = []) (h : SeedOK s) :
    SeedOK (assign_employee_to_shift s e day shift) := by
  intro d sh
  rw [assign_schedule]
  split
  · next hslot =>
    obtain ⟨rfl, rfl⟩ := hslot
    rw [hempty]
    simp
  · exact h d sh

/-! ### Generic preservation through the two phases -/

lemma phase1Shifts_preserves (P : Scheduler → Prop)
    (hstep : ∀ s e day shift, can_assign_shift s e day shift = true →
      s.schedule day shift = [] → P s →
      P (assign_employee_to_shift s e day shift)) :
    ∀ (shifts : List String) (s : Scheduler) (e day : String),
      P s → P (phase1Shifts s e day shifts) := by
  intro shifts
  induction shifts with
  | nil => intro s e day hP; exact hP
  | cons sh rest ih =>
    intro s e day hP
    rw [phase1Shifts]
    split
    · next hca =>
      split
      · next hempty => exact hstep s e day sh hca hempty hP
      · exact ih s e day hP
    · exact ih s e day hP

lemma phase1Days_preserves (P : Scheduler → Prop)
    (hstep : ∀ s e day shift, can_assign_shift s e day shift = true →
      s.schedule day shift = [] → P s →
      P (assign_employee_to_shift s e day shift)) :
    ∀ (prefs : List (String × List String)) (s : Scheduler) (e : String),
      P s → P (phase1Days s e prefs) := by
  intro prefs
  induction prefs with
  | nil => intro s e hP; exact hP
  | cons p rest ih =>
    intro s e hP
    obtain ⟨day, shifts⟩ := p
    rw [phase1Days]
    exact ih _ e (phase1Shifts_preserves P hstep shifts s e day hP)

lemma phase1Emps_preserves (P : Scheduler → Prop)
    (hstep : ∀ s e day shift, can_assign_shift s e day shift = true →
      s.schedule day shift = [] → P s →
      P (assign_employee_to_shift s e day shift)) :
    ∀ (prefs : List (String × List (String × List String))) (s : Scheduler),
      P s → P (phase1Emps s prefs) := by
  intro prefs
  induction prefs with
  | nil => intro s hP; exact hP
  | cons p rest ih =>
    intro s hP
    obtain ⟨e, dayPrefs⟩ := p
    rw [phase1Emps]
    exact ih _ (phase1Days_preserves P hstep dayPrefs s e hP)

lemma phase1_preserves (P : Scheduler → Prop)
    (hstep : ∀ s e day shift, can_assign_shift s e day shift = true →
      s.schedule day shift = [] → P s →
      P (assign_employee_to_shift s e day shift))
    (s : Scheduler) (hP : P s) : P (phase1 s) :=
  phase1Emps_preserves P hstep s.preferences s hP

lemma fillSlotFuel_preserves (P : Scheduler → Prop)
    (hstep : ∀ s e day shift, can_assign_shift s e day shift = true → P s →
      P (assign_employee_to_shift s e day shift)) (day shift : String) :
    ∀ (n : Nat) (s : Scheduler), P s → P (fillSlotFuel day shift n s).state := by
  intro n
  induction n with
  | zero => intro s hP; exact hP
  | succ n ih =>
    intro s hP
    rw [fillSlotFuel]
    split
    · rcases hsort : List.insertionSort
          (fun a b => s.weekly_shifts a ≤ s.weekly_shifts b)
          (availableEmployees s day shift) with - | ⟨sel, others⟩
      · exact hP
      · exact ih _ (hstep s sel day shift (selected_can_assign hsort).2 hP)
    · exact hP

lemma phase2_preserves (P : Scheduler → Prop)
    (hstep : ∀ s e day shift, can_assign_shift s e day shift = true → P s →
      P (assign_employee_to_shift s e day shift)) :
    ∀ (slots : List (String × String)) (s : Scheduler) (r : GenResult)
      (s' : Scheduler), phase2 slots s = (r, s') → P s → P s' := by
  intro slots
  induction slots with
  | nil =>
    intro s r s' h hP
    rw [phase2] at h
    obtain ⟨-, rfl⟩ := Prod.mk.injEq .. ▸ And.intro (congrArg Prod.fst h)
      (congrArg Prod.snd h)
    exact hP
  | cons p rest ih =>
    intro s r s' h hP
    obtain ⟨day, shift⟩ := p
    rw [phase2] at h
    have hfill : P (fillSlot day shift s).state :=
      fillSlotFuel_preserves P hstep day shift MIN_EMPLOYEES_PER_SHIFT s hP
    cases hfs : fillSlot day shift s with
    | shortfall s2 =>
      rw [hfs] at h hfill
      obtain ⟨-, rfl⟩ := Prod.mk.injEq .. ▸ And.intro (congrArg Prod.fst h)
        (congrArg Prod.snd h)
      exact hfill
    | ok s2 =>
      rw [hfs] at h hfill
      exact ih s2 r s' h hfill

/-! ### Locality and length facts about Phase 2 -/

/-- The Phase-2 loop for one slot never touches any other slot. -/
lemma fillSlotFuel_other (day shift : String) :
    ∀ (n : Nat) (s : Scheduler) (d sh : String), ¬(d = day ∧ sh = shift) →
      ((fillSlotFuel day shift n s).state).schedule d sh = s.schedule d sh := by
  intro n
  induction n with
  | zero => intro s d sh _; rfl
  | succ n ih =>
    intro s d sh hne
    rw [fillSlotFuel]
    split
    · rcases hsort : List.insertionSort
          (fun a b => s.weekly_shifts a ≤ s.weekly_shifts b)
          (availableEmployees s day shift) with - | ⟨sel, others⟩
      · rfl
      · rw [ih _ d sh hne, assign_schedule, if_neg hne]
    · rfl

/-- If the Phase-2 loop for a slot exits normally with enough fuel, the slot
meets the minimum. -/
lemma fillSlotFuel_ok_min (day shift : String) :
    ∀ (n : Nat) (s s' : Scheduler), fillSlotFuel day shift n s = .ok s' →
      MIN_EMPLOYEES_PER_SHIFT ≤ n + (s.schedule day shift).length →
      MIN_EMPLOYEES_PER_SHIFT ≤ (s'.schedule day shift).length := by
  intro n
  induction n with
  | zero =>
    intro s s' h hfuel
    obtain rfl : s = s' := FillResult.ok.inj h
    omega
  | succ n ih =>
    intro s s' h hfuel
    rw [fillSlotFuel] at h
    split at h
    · next hlen =>
      rcases hsort : List.insertionSort
          (fun a b => s.weekly_shifts a ≤ s.weekly_shifts b)
          (availableEmployees s day shift) with - | ⟨sel, others⟩
      · rw [hsort] at h
        exact FillResult.noConfusion h
      · rw [hsort] at h
        refine ih _ s' h ?_
        rw [assign_schedule, if_pos ⟨rfl, rfl⟩, List.length_append]
        simp only [List.length_singleton]
        omega
    · next hlen =>
      obtain rfl : s = s' := FillResult.ok.inj h
      omega

/-- With enough fuel and a slot at or below the minimum, a normal exit leaves
the slot at exactly the minimum. -/
lemma fillSlotFuel_ok_exact (day shift : String) :
    ∀ (n : Nat) (s s' : Scheduler), fillSlotFuel day shift n s = .ok s' →
      (s.schedule day shift).length ≤ MIN_EMPLOYEES_PER_SHIFT →
      MIN_EMPLOYEES_PER_SHIFT ≤ n + (s.schedule day shift).length →
      (s'.schedule day shift).length = MIN_EMPLOYEES_PER_SHIFT := by
  intro n
  induction n with
  | zero =>
    intro s s' h hle hfuel
    obtain rfl : s = s' := FillResult.ok.inj h
    omega
  | succ n ih =>
    intro s s' h hle hfuel
    rw [fillSlotFuel] at h
    split at h
    · next hlen =>
      rcases hsort : List.insertionSort
          (fun a b => s.weekly_shifts a ≤ s.weekly_shifts b)
          (availableEmployees s day shift) with - | ⟨sel, others⟩
      · rw [hsort] at h
        exact FillResult.noConfusion h
      · rw [hsort] at h
        refine ih _ s' h ?_ ?_ <;>
          rw [assign_schedule, if_pos ⟨rfl, rfl⟩, List.length_append] <;>
          simp only [List.length_singleton] <;> omega
    · next hlen =>
      obtain rfl : s = s' := FillResult.ok.inj h
      omega

/-- Phase 2 leaves every slot outside its worklist untouched. -/
lemma phase2_untouched :
    ∀ (slots : List (String × String)) (s : Scheduler) (r : GenResult)
      (s' : Scheduler), phase2 slots s = (r, s') →
      ∀ d sh, (d, sh) ∉ slots → s'.schedule d sh = s.schedule d sh := by
  intro slots
  induction slots with
  | nil =>
    intro s r s' h d sh _
    rw [phase2] at h
    obtain rfl : s = s' := congrArg Prod.snd h
    rfl
  | cons p rest ih =>
    intro s r s' h d sh hmem
    obtain ⟨day, shift⟩ := p
    have hne : ¬(d = day ∧ sh = shift) := by
      rintro ⟨rfl, rfl⟩
      exact hmem (List.mem_cons_self _ _)
    have hrest : (d, sh) ∉ rest := fun hx => hmem (List.mem_cons_of_mem _ hx)
    rw [phase2] at h
    have hother := fillSlotFuel_other day shift MIN_EMPLOYEES_PER_SHIFT s d sh hne
    cases hfs : fillSlot day shift s with
    | shortfall s2 =>
      have hfs' : fillSlotFuel day shift MIN_EMPLOYEES_PER_SHIFT s =
          FillResult.shortfall s2 := hfs
      rw [hfs'] at hother
      rw [hfs] at h
      have h' : (GenResult.staffingShortfall day shift s2, s2) = (r, s') := h
      obtain rfl : s2 = s' := congrArg Prod.snd h'
      exact hother
    | ok s2 =>
      have hfs' : fillSlotFuel day shift MIN_EMPLOYEES_PER_SHIFT s =
          FillResult.ok s2 := hfs
      rw [hfs'] at hother
      rw [hfs] at h
      have h' : phase2 rest s2 = (r, s') := h
      exact (ih s2 r s' h' d sh hrest).trans hother

/-- On success every slot in the worklist meets the minimum. -/
lemma phase2_success_min :
    ∀ (slots : List (String × String)) (s s' : Scheduler),
      phase2 slots s = (.success, s') → slots.Nodup →
      ∀ p ∈ slots, MIN_EMPLOYEES_PER_SHIFT ≤ (s'.schedule p.1 p.2).length := by
  intro slots
  induction slots with
  | nil => intro s s' h _ p hp; simp at hp
  | cons q rest ih =>
    intro s s' h hnodup p hp
    obtain ⟨day, shift⟩ := q
    rw [phase2] at h
    cases hfs : fillSlot day shift s with
    | shortfall s2 =>
      rw [hfs] at h
      have h' : (GenResult.staffingShortfall day shift s2, s2) =
          (GenResult.success, s') := h
      exact absurd (congrArg Prod.fst h') (by simp)
    | ok s2 =>
      rw [hfs] at h
      have h' : phase2 rest s2 = (GenResult.success, s') := h
      have hmin : MIN_EMPLOYEES_PER_SHIFT ≤ (s2.schedule day shift).length :=
        fillSlotFuel_ok_min day shift MIN_EMPLOYEES_PER_SHIFT s s2 hfs
          (Nat.le_add_right _ _)
      rcases List.mem_cons.mp hp with rfl | hp
      · have hhead : ((day, shift) : String × String) ∉ rest :=
          (List.nodup_cons.mp hnodup).1
        rw [phase2_untouched rest s2 .success s' h' day shift hhead]
        exact hmin
      · exact ih s2 s' h' (List.nodup_cons.mp hnodup).2 p hp

/-- On success, if every slot entered Phase 2 at or below the minimum, every
slot in the worklist ends at exactly the minimum. -/
lemma phase2_success_exact :
    ∀ (slots : List (String × String)) (s s' : Scheduler),
      phase2 slots s = (.success, s') → slots.Nodup →
      (∀ p ∈ slots, (s.schedule p.1 p.2).length ≤ MIN_EMPLOYEES_PER_SHIFT) →
      ∀ p ∈ slots, (s'.schedule p.1 p.2).length = MIN_EMPLOYEES_PER_SHIFT := by
  intro slots
  induction slots with
  | nil => intro s s' h _ _ p hp; simp at hp
  | cons q rest ih =>
    intro s s' h hnodup hentry p hp
    obtain ⟨day, shift⟩ := q
    rw [phase2] at h
    cases hfs : fillSlot day shift s with
    | shortfall s2 =>
      rw [hfs] at h
      have h' : (GenResult.staffingShortfall day shift s2, s2) =
          (GenResult.success, s') := h
      exact absurd (congrArg Prod.fst h') (by simp)
    | ok s2 =>
      rw [hfs] at h
      have h' : phase2 rest s2 = (GenResult.success, s') := h
      have hhead : ((day, shift) : String × String) ∉ rest :=
        (List.nodup_cons.mp hnodup).1
      have hexact : (s2.schedule day shift).length = MIN_EMPLOYEES_PER_SHIFT :=
        fillSlotFuel_ok_exact day shift MIN_EMPLOYEES_PER_SHIFT s s2 hfs
          (hentry (day, shift) (List.mem_cons_self _ _)) (Nat.le_add_right _ _)
      rcases List.mem_cons.mp hp with rfl | hp
      · rw [phase2_untouched rest s2 .success s' h' day shift hhead]
        exact hexact
      · refine ih s2 s' h' (List.nodup_cons.mp hnodup).2 ?_ p hp
        intro q hq
        have hqne : ¬(q.1 = day ∧ q.2 = shift) := by
          rintro ⟨h1, h2⟩
          exact hhead (by rw [← h1, ← h2]; exact hq)
        have hoth :=
          fillSlotFuel_other day shift MIN_EMPLOYEES_PER_SHIFT s q.1 q.2 hqne
        have hfs' : fillSlotFuel day shift MIN_EMPLOYEES_PER_SHIFT s =
            FillResult.ok s2 := hfs
        rw [hfs'] at hoth
        have hoth' : s2.schedule q.1 q.2 = s.schedule q.1 q.2 := hoth
        rw [hoth']
        exact hentry q (List.mem_cons_of_mem _ hq)

/-- On a shortfall outcome, the reported snapshot is exactly the state the
engine retains. -/
lemma phase2_shortfall_state :
    ∀ (slots : List (String × String)) (s : Scheduler) (day shift : String)
      (snap s' : Scheduler),
      phase2 slots s = (.staffingShortfall day shift snap, s') → snap = s' := by
  intro slots
  induction slots with
  | nil =>
    intro s day shift snap s' h
    rw [phase2] at h
    exact absurd (congrArg Prod.fst h) (by simp)
  | cons q rest ih =>
    intro s day shift snap s' h
    obtain ⟨day0, shift0⟩ := q
    rw [phase2] at h
    cases hfs : fillSlot day0 shift0 s with
    | shortfall s2 =>
      rw [hfs] at h
      have h' : (GenResult.staffingShortfall day0 shift0 s2, s2) =
          (GenResult.staffingShortfall day shift snap, s') := h
      have h1 := congrArg Prod.fst h'
      have h2 := congrArg Prod.snd h'
      simp only at h1 h2
      obtain ⟨-, -, rfl⟩ := GenResult.staffingShortfall.inj h1
      exact h2
    | ok s2 =>
      rw [hfs] at h
      have h' : phase2 rest s2 = (GenResult.staffingShortfall day shift snap, s') := h
      exact ih s2 day shift snap s' h'

/-- Every valid (day, shift) pair occurs in the Phase-2 worklist. -/
lemma mem_allSlots {d sh : String} (hd : d ∈ DAYS_OF_WEEK)
    (hsh : sh ∈ SHIFT_TIMES) : (d, sh) ∈ allSlots := by
  rw [allSlots, List.mem_flatMap]
  exact ⟨d, hd, List.mem_map.mpr ⟨sh, hsh, rfl⟩⟩

lemma allSlots_nodup : allSlots.Nodup := by decide

/-! ### Claim theorems -/

/-- C1 (counterexample): the claim "as soon as one preference of an employee
is assigned, no further preferences of that employee are considered in
Phase 1 — each employee receives at most one Phase-1 assignment" is false: in
a nine-employee state where "A" prefers Monday Morning and Tuesday Morning,
Phase 1 of `generate_schedule` (which runs, since the roster meets
MIN_TOTAL_EMPLOYEES) assigns "A" to both slots — the `break` leaves only the
per-day shift loop, not the day loop. -/
theorem phase1_two_assignments_cx :
    MIN_TOTAL_EMPLOYEES ≤ ex10.all_employees.length ∧
      "A" ∈ (phase1 (clear_schedule ex10)).schedule "Monday" "Morning" ∧
      "A" ∈ (phase1 (clear_schedule ex10)).schedule "Tuesday" "Morning" := by
  decide

/-- C1 (amended): for each (employee, day) entry of the preference dict,
Phase 1 assigns the employee at the first preferred shift of that day where
`can_assign_shift` holds and the slot is empty, and then stops scanning that
day's shifts only; an employee with preferences on several distinct days can
receive up to one Phase-1 assignment per preferred day, not at most one
overall. -/
theorem phase1Shifts_first_fit (s : Scheduler) (employee day : String)
    (shifts : List String) :
    (phase1Shifts s employee day shifts = s ∧
      ∀ sh ∈ shifts, ¬(can_assign_shift s employee day sh = true ∧
        s.schedule day sh = [])) ∨
    (∃ pre sh post, shifts = pre ++ sh :: post ∧
      (∀ sh' ∈ pre, ¬(can_assign_shift s employee day sh' = true ∧
        s.schedule day sh' = [])) ∧
      can_assign_shift s employee day sh = true ∧ s.schedule day sh = [] ∧
      phase1Shifts s employee day shifts =
        assign_employee_to_shift s employee day sh) := by
  induction shifts with
  | nil => exact Or.inl ⟨rfl, by simp⟩
  | cons sh0 rest ih =>
    by_cases hca : can_assign_shift s employee day sh0 = true
    · by_cases hempty : s.schedule day sh0 = []
      · refine Or.inr ⟨[], sh0, rest, rfl, by simp, hca, hempty, ?_⟩
        rw [phase1Shifts, if_pos hca, if_pos hempty]
      · have heq : phase1Shifts s employee day (sh0 :: rest) =
            phase1Shifts s employee day rest := by
          rw [phase1Shifts, if_pos hca, if_neg hempty]
        rcases ih with ⟨h1, h2⟩ | ⟨pre, sh, post, hsplit, hpre, hca', hemp', heq'⟩
        · refine Or.inl ⟨heq.trans h1, ?_⟩
          intro x hx
          rcases List.mem_cons.mp hx with rfl | hx
          · exact fun hc => hempty hc.2
          · exact h2 x hx
        · refine Or.inr ⟨sh0 :: pre, sh, post, by rw [hsplit]; rfl, ?_, hca',
            hemp', heq.trans heq'⟩
          intro x hx
          rcases List.mem_cons.mp hx with rfl | hx
          · exact fun hc => hempty hc.2
          · exact hpre x hx
    · have heq : phase1Shifts s employee day (sh0 :: rest) =
          phase1Shifts s employee day rest := by
        rw [phase1Shifts, if_neg hca]
      rcases ih with ⟨h1, h2⟩ | ⟨pre, sh, post, hsplit, hpre, hca', hemp', heq'⟩
      · refine Or.inl ⟨heq.trans h1, ?_⟩
        intro x hx
        rcases List.mem_cons.mp hx with rfl | hx
        · exact fun hc => hca hc.1
        · exact h2 x hx
      · refine Or.inr ⟨sh0 :: pre, sh, post, by rw [hsplit]; rfl, ?_, hca',
          hemp', heq.trans heq'⟩
        intro x hx
        rcases List.mem_cons.mp hx with rfl | hx
        · exact fun hc => hca hc.1
        · exact hpre x hx

/-- C2: with fewer than MIN_TOTAL_EMPLOYEES registered employees,
`generate_schedule` reports `insufficientStaff` with the current employee
count and returns the state completely unchanged — in particular,
`clear_schedule` has not run. -/
theorem generate_insufficient_staff (s : Scheduler)
    (h : s.all_employees.length < MIN_TOTAL_EMPLOYEES) :
    generate_schedule s =
      (GenResult.insufficientStaff s.all_employees.length, s) := by
  rw [generate_schedule, if_pos h]

theorem generate_insufficient_staff_witness :
    ex5.all_employees.length < MIN_TOTAL_EMPLOYEES ∧
      generate_schedule ex5 =
        (GenResult.insufficientStaff ex5.all_employees.length, ex5) :=
  ⟨by decide, generate_insufficient_staff ex5 (by decide)⟩

/-- C3: in Phase 2, whenever the slot at the head of the remaining worklist
is below MIN_EMPLOYEES_PER_SHIFT and no registered employee is eligible for
it, the phase returns a `staffingShortfall` naming that slot's day and shift
and carrying the current partial state as the snapshot, and the engine
retains exactly that state; the result does not depend on the remaining
slots, which are never processed, and nothing is rolled back. -/
theorem phase2_staffing_shortfall (s : Scheduler) (day shift : String)
    (rest : List (String × String))
    (hlen : (s.schedule day shift).length < MIN_EMPLOYEES_PER_SHIFT)
    (hav : availableEmployees s day shift = []) :
    phase2 ((day, shift) :: rest) s =
      (GenResult.staffingShortfall day shift s, s) := by
  have hfs : fillSlot day shift s = FillResult.shortfall s := by
    show fillSlotFuel day shift MIN_EMPLOYEES_PER_SHIFT s = FillResult.shortfall s
    rw [show MIN_EMPLOYEES_PER_SHIFT = Nat.succ 1 from rfl, fillSlotFuel]
    rw [if_pos hlen, hav]
    rfl
  rw [phase2, hfs]

theorem phase2_staffing_shortfall_witness :
    (initScheduler.schedule "Monday" "Morning").length <
        MIN_EMPLOYEES_PER_SHIFT ∧
      availableEmployees initScheduler "Monday" "Morning" = [] ∧
      phase2 [("Monday", "Morning")] initScheduler =
        (GenResult.staffingShortfall "Monday" "Morning" initScheduler,
          initScheduler) :=
  ⟨by decide, by decide,
    phase2_staffing_shortfall initScheduler "Monday" "Morning" []
      (by decide) (by decide)⟩

/-- C4: one iteration of the Phase-2 loop on an under-filled slot assigns the
head of the load-sorted eligible list, which is a registered employee for
whom `can_assign_shift` holds, and no eligible registered employee has a
strictly smaller current weekly load. -/
theorem phase2_selects_least_loaded (s : Scheduler) (day shift : String)
    (selected : String) (others : List String) (n : Nat)
    (hlen : (s.schedule day shift).length < MIN_EMPLOYEES_PER_SHIFT)
    (hsel : List.insertionSort (fun a b => s.weekly_shifts a ≤ s.weekly_shifts b)
        (availableEmployees s day shift) = selected :: others) :
    fillSlotFuel day shift (n + 1) s =
        fillSlotFuel day shift n (assign_employee_to_shift s selected day shift) ∧
      selected ∈ s.all_employees ∧
      can_assign_shift s selected day shift = true ∧
      ∀ e ∈ s.all_employees, can_assign_shift s e day shift = true →
        s.weekly_shifts selected ≤ s.weekly_shifts e := by
  obtain ⟨hmem, hca⟩ := selected_can_assign hsel
  refine ⟨?_, hmem, hca, ?_⟩
  · rw [fillSlotFuel, if_pos hlen, hsel]
  · intro e he hecan
    exact (insertionSort_head_min s.weekly_shifts _ _ _ hsel).2 e
      (List.mem_filter.mpr ⟨he, hecan⟩)

theorem phase2_selects_least_loaded_witness :
    (exAB.schedule "Monday" "Morning").length < MIN_EMPLOYEES_PER_SHIFT ∧
      List.insertionSort (fun a b => exAB.weekly_shifts a ≤ exAB.weekly_shifts b)
          (availableEmployees exAB "Monday" "Morning") = "A" :: ["B"] ∧
      (fillSlotFuel "Monday" "Morning" (0 + 1) exAB =
          fillSlotFuel "Monday" "Morning" 0
            (assign_employee_to_shift exAB "A" "Monday" "Morning") ∧
        "A" ∈ exAB.all_employees ∧
        can_assign_shift exAB "A" "Monday" "Morning" = true ∧
        ∀ e ∈ exAB.all_employees,
          can_assign_shift exAB e "Monday" "Morning" = true →
            exAB.weekly_shifts "A" ≤ exAB.weekly_shifts e) :=
  ⟨by decide, by decide,
    phase2_selects_least_loaded exAB "Monday" "Morning" "A" ["B"] 0
      (by decide) (by decide)⟩

/-- C8: for every state and valid (day, shift) pair, `can_assign_shift` is
true exactly when the employee is not in that day's daily set, their weekly
load (0 when absent) is below MAX_SHIFTS_PER_WEEK, and they are not already
in the slot's list. The embedding of `can_assign_shift` is a plain function
of the state returning a `Bool`, so the call cannot change the engine
state. -/
theorem can_assign_shift_spec (s : Scheduler) (employee day shift : String)
    (hd : day ∈ DAYS_OF_WEEK) (hsh : shift ∈ SHIFT_TIMES) :
    can_assign_shift s employee day shift = true ↔
      (s.daily_employees day employee = false ∧
        s.weekly_shifts employee < MAX_SHIFTS_PER_WEEK ∧
        employee ∉ s.schedule day shift) :=
  can_assign_shift_eq_true

theorem can_assign_shift_spec_witness :
    "Monday" ∈ DAYS_OF_WEEK ∧ "Morning" ∈ SHIFT_TIMES ∧
      (can_assign_shift initScheduler "A" "Monday" "Morning" = true ↔
        (initScheduler.daily_employees "Monday" "A" = false ∧
          initScheduler.weekly_shifts "A" < MAX_SHIFTS_PER_WEEK ∧
          "A" ∉ initScheduler.schedule "Monday" "Morning")) :=
  ⟨by decide, by decide,
    can_assign_shift_spec initScheduler "A" "Monday" "Morning"
      (by decide) (by decide)⟩

/-- C9: `add_employee_preference` with a day outside the seven valid days or
a shift outside the three valid shift kinds returns the state unchanged: no
roster registration, no preference entry, no error. -/
theorem add_employee_preference_invalid (s : Scheduler)
    (employee day shift : String)
    (h : day ∉ VALID_DAYS ∨ shift ∉ VALID_SHIFTS) :
    add_employee_preference s employee day shift = s := by
  rw [add_employee_preference, if_pos h]

theorem add_employee_preference_invalid_witness :
    ("Holiday" ∉ VALID_DAYS ∨ "Morning" ∉ VALID_SHIFTS) ∧
      add_employee_preference initScheduler "A" "Holiday" "Morning" =
        initScheduler :=
  ⟨by decide,
    add_employee_preference_invalid initScheduler "A" "Holiday" "Morning"
      (by decide)⟩

/-- C5: when `generate_schedule` returns success, every one of the 21
(day, shift) slots holds at least MIN_EMPLOYEES_PER_SHIFT employees. -/
theorem generate_success_min_staffing (s s' : Scheduler)
    (h : generate_schedule s = (GenResult.success, s')) :
    ∀ day ∈ DAYS_OF_WEEK, ∀ shift ∈ SHIFT_TIMES,
      MIN_EMPLOYEES_PER_SHIFT ≤ (s'.schedule day shift).length := by
  intro day hd shift hsh
  rw [generate_schedule] at h
  split at h
  · exact absurd (congrArg Prod.fst h) (by simp)
  · exact phase2_success_min allSlots _ s' h allSlots_nodup (day, shift)
      (mem_allSlots hd hsh)

/-- C6: in the state the engine holds when `generate_schedule` returns
anything other than `insufficientStaff` (success, or the state reported and
retained on `staffingShortfall` — the two coincide by
`phase2_shortfall_state`), every employee's weekly load is at most
MAX_SHIFTS_PER_WEEK. Loads only grow during a cycle, so this bounds every
intermediate state of the run as well. -/
theorem generate_weekly_cap (s : Scheduler) (r : GenResult) (s' : Scheduler)
    (h : generate_schedule s = (r, s'))
    (hr : ∀ n, r ≠ GenResult.insufficientStaff n) :
    ∀ e, s'.weekly_shifts e ≤ MAX_SHIFTS_PER_WEEK := by
  rw [generate_schedule] at h
  split at h
  · exact absurd (congrArg Prod.fst h).symm (hr _)
  · have hcap1 : CapOK (phase1 (clear_schedule s)) :=
      phase1_preserves CapOK
        (fun s e day shift hca _ hc => assign_CapOK hca hc) _ (clear_CapOK s)
    exact phase2_preserves CapOK
      (fun s e day shift hca hc => assign_CapOK hca hc) allSlots _ r s' h hcap1

/-- C7: in the state the engine holds when `generate_schedule` returns
anything other than `insufficientStaff` (success or shortfall), no employee
sits in two different shift slots of the same day. Slot lists only grow
during a cycle, so a violation at any intermediate point would persist to
the end; hence this also rules out intermediate violations. -/
theorem generate_daily_exclusivity (s : Scheduler) (r : GenResult)
    (s' : Scheduler) (h : generate_schedule s = (r, s'))
    (hr : ∀ n, r ≠ GenResult.insufficientStaff n) :
    ∀ day sh1 sh2 e, sh1 ≠ sh2 →
      e ∈ s'.schedule day sh1 → e ∉ s'.schedule day sh2 := by
  rw [generate_schedule] at h
  split at h
  · exact absurd (congrArg Prod.fst h).symm (hr _)
  · have h1 : LinkOK (phase1 (clear_schedule s)) ∧
        ExclOK (phase1 (clear_schedule s)) :=
      phase1_preserves (fun t => LinkOK t ∧ ExclOK t)
        (fun s e day shift hca _ hq =>
          ⟨assign_LinkOK hq.1, assign_ExclOK hca hq.1 hq.2⟩)
        _ ⟨clear_LinkOK s, clear_ExclOK s⟩
    exact (phase2_preserves (fun t => LinkOK t ∧ ExclOK t)
      (fun s e day shift hca hq =>
        ⟨assign_LinkOK hq.1, assign_ExclOK hca hq.1 hq.2⟩)
      allSlots _ r s' h h1).2

lemma sum_const_of_mem :
    ∀ (l : List (String × String)) (f : String × String → Nat) (c : Nat),
      (∀ p ∈ l, f p = c) → (l.map f).sum = l.length * c := by
  intro l
  induction l with
  | nil => intro f c _; simp
  | cons q rest ih =>
    intro f c hf
    simp only [List.map_cons, List.sum_cons, List.length_cons]
    rw [hf q (List.mem_cons_self _ _),
      ih f c (fun p hp => hf p (List.mem_cons_of_mem _ hp))]
    ring

/-- C10: when `generate_schedule` returns success, every one of the 21 slots
holds exactly MIN_EMPLOYEES_PER_SHIFT employees — Phase 1 seeds at most one
employee per slot (it only assigns into empty slots) and Phase 2 stops a slot
at the minimum — so the total number of assignments is exactly 42. -/
theorem generate_success_exact_staffing (s s' : Scheduler)
    (h : generate_schedule s = (GenResult.success, s')) :
    (∀ day ∈ DAYS_OF_WEEK, ∀ shift ∈ SHIFT_TIMES,
        (s'.schedule day shift).length = MIN_EMPLOYEES_PER_SHIFT) ∧
      (allSlots.map (fun p => (s'.schedule p.1 p.2).length)).sum = 42 := by
  rw [generate_schedule] at h
  split at h
  · exact absurd (congrArg Prod.fst h) (by simp)
  · have hseed : SeedOK (phase1 (clear_schedule s)) :=
      phase1_preserves SeedOK
        (fun s e day shift _ hempty hs => assign_SeedOK hempty hs)
        _ (clear_SeedOK s)
    have hentry : ∀ p ∈ allSlots,
        ((phase1 (clear_schedule s)).schedule p.1 p.2).length ≤
          MIN_EMPLOYEES_PER_SHIFT := by
      intro p _
      exact le_trans (hseed p.1 p.2) (by decide)
    have hpt := phase2_success_exact allSlots _ s' h allSlots_nodup hentry
    refine ⟨fun day hd shift hsh => hpt (day, shift) (mem_allSlots hd hsh), ?_⟩
    rw [sum_const_of_mem allSlots _ MIN_EMPLOYEES_PER_SHIFT hpt]
    rfl

/-- Scenario A concretely succeeds: nine preference-free employees yield a
full schedule. -/
lemma ex9_success :
    generate_schedule ex9 = (GenResult.success, (generate_schedule ex9).2) := by
  have h1 : (generate_schedule ex9).1 = GenResult.success := rfl
  exact Prod.ext_iff.mpr ⟨h1, rfl⟩

theorem generate_success_min_staffing_witness :
    MIN_EMPLOYEES_PER_SHIFT ≤
      (((generate_schedule ex9).2).schedule "Monday" "Morning").length :=
  generate_success_min_staffing ex9 (generate_schedule ex9).2 ex9_success
    "Monday" (by decide) "Morning" (by decide)

theorem generate_weekly_cap_witness :
    ((generate_schedule ex9).2).weekly_shifts "A" ≤ MAX_SHIFTS_PER_WEEK :=
  generate_weekly_cap ex9 GenResult.success (generate_schedule ex9).2
    ex9_success (fun n h => GenResult.noConfusion h) "A"

theorem generate_daily_exclusivity_witness :
    "A" ∉ ((generate_schedule ex9).2).schedule "Monday" "Afternoon" :=
  generate_daily_exclusivity ex9 GenResult.success (generate_schedule ex9).2
    ex9_success (fun n h => GenResult.noConfusion h) "Monday" "Morning"
    "Afternoon" "A" (by decide) (by decide)

theorem generate_success_exact_staffing_witness :
    (((generate_schedule ex9).2).schedule "Monday" "Morning").length =
        MIN_EMPLOYEES_PER_SHIFT ∧
      (allSlots.map
          (fun p => (((generate_schedule ex9).2).schedule p.1 p.2).length)).sum
        = 42 :=
  ⟨(generate_success_exact_staffing ex9 (generate_schedule ex9).2
      ex9_success).1 "Monday" (by decide) "Morning" (by decide),
    (generate_success_exact_staffing ex9 (generate_schedule ex9).2
      ex9_success).2⟩
